import Mathlib

/-!
Verification of the ShellSage error interceptor
(`src/shellsage/error_interceptor.py`).

The Python source is shallowly embedded below: the session history
(`collections.deque(maxlen=20)` plus the append logic of `run_command`
and `auto_analyze`), the manual-page excerpt scanner `_get_man_page`,
the ANSI sanitizer of `_get_full_error_output`, the `<think>` extraction
loop and the section regexes of `_show_analysis`, the context-fragment
accessors (`_get_file_context`, `_get_additional_context`) and the
debug-flag branch of `_handle_error`.  Strings are modelled as `List Char`
(Python strings are sequences of Unicode code points), subprocess and
filesystem effects as explicit oracle values.
-/

namespace ShellSage

/-! ### Session history

`self.command_history = deque(maxlen=20)`: appending to a full deque
evicts the oldest (leftmost) element. -/

def dequeAppend (cap : Nat) (h : List String) (c : String) : List String :=
  let h2 := h ++ [c]
  h2.drop (h2.length - cap)

/-- `run_command` line 31:
`if full_cmd != self.command_history[-1] if self.command_history else True:`
which Python parses as
`(full_cmd != hist[-1]) if hist else True` — append unless the history is
non-empty and its last entry equals the command. -/
def runCommandSubmit (h : List String) (c : String) : List String :=
  let keep : Bool :=
    match h.getLast? with
    | some lastCmd => c != lastCmd
    | none => true
  if keep then dequeAppend 20 h c else h

/-- `auto_analyze` line 57: `self.command_history.append(command)` with no
duplicate check. -/
def autoAnalyzeSubmit (h : List String) (c : String) : List String :=
  dequeAppend 20 h c

/-- A command submission event: either through `run_command` or through
`auto_analyze`. -/
inductive Submission where
  | run (cmd : String)
  | auto (cmd : String)

def Submission.cmd : Submission → String
  | .run c => c
  | .auto c => c

def submitStep (h : List String) : Submission → List String
  | .run c => runCommandSubmit h c
  | .auto c => autoAnalyzeSubmit h c

def submitAll (evs : List Submission) : List String :=
  evs.foldl submitStep []

/-! ### Python string helpers -/

/-- The characters stripped by Python's `str.strip()` (ASCII whitespace). -/
def isPySpace (c : Char) : Bool :=
  c == ' ' || c == '\t' || c == '\n' || c == '\r' || c == '\x0b' || c == '\x0c'

/-- Python `str.strip()`: remove leading and trailing whitespace. -/
def pyStrip (s : List Char) : List Char :=
  List.rdropWhile isPySpace (List.dropWhile isPySpace s)

/-- Python `str.split()` with no argument: split on whitespace runs,
producing no empty tokens.  `acc` holds the current token reversed. -/
def splitWsAux : List Char → List Char → List (List Char)
  | [], acc => if acc.isEmpty then [] else [acc.reverse]
  | c :: rest, acc =>
    if isPySpace c then
      if acc.isEmpty then splitWsAux rest [] else acc.reverse :: splitWsAux rest []
    else splitWsAux rest (c :: acc)

def pySplitWs (s : List Char) : List (List Char) := splitWsAux s []

/-! ### ANSI sanitisation (`_get_full_error_output`, line 149)

`re.sub` on the CSI pattern (ESC, `[`, parameter bytes `0x30`–`0x3F`,
intermediate bytes `0x20`–`0x2F`, one final byte `0x40`–`0x7E`), replacing
each match by the empty string, followed by `.strip()`. -/

/-- the regex class `[0-?]` (parameter bytes `0x30`–`0x3F`) -/
def isParamByte (c : Char) : Bool := '0' ≤ c && c ≤ '?'

/-- the regex class of intermediate bytes, space through slash
(`0x20`–`0x2F`) -/
def isInterByte (c : Char) : Bool := ' ' ≤ c && c ≤ '/'

/-- the regex class `[@-~]` (final bytes `0x40`–`0x7E`) -/
def isFinalByte (c : Char) : Bool := '@' ≤ c && c ≤ '~'

/-- Match the CSI pattern (ESC, `[`, parameter bytes, intermediate bytes, one
final byte) at the head of the string, returning the remainder after the
match.  The three character classes are pairwise disjoint,
so the greedy quantifiers never need to backtrack and maximal-munch scanning
is exact. -/
def ansiMatch : List Char → Option (List Char)
  | '\x1B' :: '[' :: rest =>
    match (rest.dropWhile isParamByte).dropWhile isInterByte with
    | c :: r2 => if isFinalByte c then some r2 else none
    | [] => none
  | _ => none

/-- `re.sub(pattern, '', s)`: scan left to right; at each position either
delete a match and resume after it, or keep the character.  Fuel-indexed so
that the function is structurally recursive (a match consumes at least three
characters, so `s.length` fuel always suffices). -/
def ansiSubF : Nat → List Char → List Char
  | _, [] => []
  | 0, s => s
  | fuel + 1, c :: rest =>
    match ansiMatch (c :: rest) with
    | some r => ansiSubF fuel r
    | none => c :: ansiSubF fuel rest

def ansiSub (s : List Char) : List Char := ansiSubF s.length s

/-- The full sanitisation of `_get_full_error_output`:
strip ANSI escapes, then surrounding whitespace. -/
def sanitizeOutput (s : List Char) : List Char := pyStrip (ansiSub s)

/-! ### Execution results and the context bundle -/

/-- `subprocess.CompletedProcess` as used by `_handle_error` /
`_get_full_error_output`. -/
structure CompletedProcess where
  args : String
  returncode : Int
  stdout : List Char
  stderr : List Char

/-- Lines 143–147: start from `''`; append `stderr` when truthy; then append
`'\n' + stdout` when truthy (stderr first). -/
def mergeOutputs (r : CompletedProcess) : List Char :=
  let e1 := if r.stderr.isEmpty then [] else r.stderr
  if r.stdout.isEmpty then e1 else e1 ++ '\n' :: r.stdout

def getFullErrorOutput (r : CompletedProcess) : List Char :=
  sanitizeOutput (mergeOutputs r)

/-- The commands whose last argument `_get_relevant_files_from_history`
treats as a candidate filename. -/
def fileCommands : List (List Char) :=
  ["touch".data, "mkdir".data, "cp".data, "mv".data, "vim".data, "nano".data]

/-- The scan of `_get_relevant_files_from_history` over the already reversed
history (most recent first): collect the last token of each file-affecting
command, stopping once three have been collected. -/
def relevantFilesAux : List String → List (List Char) → List (List Char)
  | [], files => files
  | cmd :: rest, files =>
    match pySplitWs cmd.data with
    | [] => relevantFilesAux rest files
    | p0 :: tl =>
      if fileCommands.contains p0 then
        let files2 := files ++ [(p0 :: tl).getLast (by simp)]
        if files2.length ≥ 3 then files2 else relevantFilesAux rest files2
      else relevantFilesAux rest files

/-- `_get_relevant_files_from_history`: iterate over
`reversed(list(self.command_history)[:-1])`. -/
def relevantFilesFromHistory (h : List String) : List (List Char) :=
  relevantFilesAux h.dropLast.reverse []

/-- The fields of the `error_context` dict assembled by `_handle_error`
(lines 71–85).  The manual-page subprocess is an oracle parameter
`manPage`. -/
structure ErrorContext where
  command : String
  error_output : List Char
  cwd : String
  exit_code : Int
  history : List String
  relevant_files : List (List Char)
  man_excerpt : Option (List Char)

def buildErrorContext (lastCommand : String) (result : CompletedProcess)
    (cwd : String) (history : List String)
    (manPage : List Char → List Char) : ErrorContext :=
  { command := lastCommand
    error_output := getFullErrorOutput result
    cwd := cwd
    exit_code := result.returncode
    history := history
    relevant_files := relevantFilesFromHistory history
    man_excerpt :=
      match pySplitWs lastCommand.data with
      | [] => none
      | tok :: _ => some (manPage tok) }

/-- Lines 87–91 of `_handle_error`: the assembled bundle is submitted
unchanged; when `SHELLSAGE_DEBUG` is set, a diagnostic dump (the `yaml.dump`
serializer is the oracle parameter `dump`) is printed first.  The value is
the submitted bundle together with the lines printed before submission. -/
def handleErrorSubmission (dump : ErrorContext → String) (debugFlag : Bool)
    (lastCommand : String) (result : CompletedProcess) (cwd : String)
    (history : List String) (manPage : List Char → List Char) :
    ErrorContext × List String :=
  let ctx := buildErrorContext lastCommand result cwd history manPage
  (ctx,
    (if debugFlag then ["[DEBUG] Error Context:" ++ dump ctx] else []) ++
      ["🔎 Analyzing error..."])

/-- A merged error output on which the ANSI sanitisation is not idempotent:
removing the partial sequence `ESC [ m` splices `ESC [ 0` together with the
trailing `m` into a new complete escape sequence. -/
def ansiCex : List Char := ['\x1B', '[', '0', '\x1B', '[', 'm', 'm']

/-! ### Manual-page excerpt (`_get_man_page`, lines 111–139)

On a zero exit of `man <command> | col -b` the stdout is scanned line by
line: a line whose upper-cased text is exactly `NAME`, `SYNOPSIS` or
`DESCRIPTION` opens a section and is collected; while a section is open,
lines starting with a space are collected stripped; the loop breaks once
more than 10 lines are collected.  The collected lines are joined with
newlines. -/

/-- Python `content.split('\n')`. -/
def splitOnNl : List Char → List (List Char)
  | [] => [[]]
  | c :: rest =>
    if c = '\n' then [] :: splitOnNl rest
    else
      match splitOnNl rest with
      | [] => [[c]]
      | l :: ls => (c :: l) :: ls

/-- Python `'\n'.join(lines)`. -/
def joinNl : List (List Char) → List Char
  | [] => []
  | [l] => l
  | l :: ls => l ++ '\n' :: joinNl ls

/-- The number of lines of a string, i.e. the length of its `split('\n')`. -/
def lineCount (s : List Char) : Nat := (splitOnNl s).length

def manHeaders : List (List Char) :=
  ["NAME".data, "SYNOPSIS".data, "DESCRIPTION".data]

/-- Python `line.upper()` (the headers compared against are ASCII). -/
def lineUpper (l : List Char) : List Char := l.map Char.toUpper

/-- Python truthiness of `current_section` (a string or `None`). -/
def currentTruthy : Option (List Char) → Bool
  | none => false
  | some l => !l.isEmpty

/-- Python `line.startswith(' ')`. -/
def startsWithSpace : List Char → Bool
  | ' ' :: _ => true
  | _ => false

/-- One iteration of the scanning loop body (before the break check). -/
def manStep (line : List Char) (current : Option (List Char))
    (secs : List (List Char)) : Option (List Char) × List (List Char) :=
  if manHeaders.contains (lineUpper line) then (some line, secs ++ [line])
  else if currentTruthy current && startsWithSpace line then
    (current, secs ++ [pyStrip line])
  else (current, secs)

/-- The scanning loop with its `if len(sections) > 10: break`. -/
def manLoop : List (List Char) → Option (List Char) → List (List Char) →
    List (List Char)
  | [], _, secs => secs
  | line :: rest, current, secs =>
    let s2 := manStep line current secs
    if s2.2.length > 10 then s2.2 else manLoop rest s2.1 s2.2

def manExcerptSections (content : List Char) : List (List Char) :=
  manLoop (splitOnNl content) none []

/-- The string `_get_man_page` returns on a successful lookup with stdout
`content`. -/
def manExcerpt (content : List Char) : List Char :=
  joinNl (manExcerptSections content)

/-- A `man` output on which the excerpt reaches 11 collected lines: one
header followed by twelve indented continuation lines. -/
def manCexContent : List Char :=
  "NAME\n a\n b\n c\n d\n e\n f\n g\n h\n i\n j\n k\n l".data

/-- The stderr text of the C8 scenario. -/
def lsStderr : List Char :=
  "ls: cannot access '/nonexistent': No such file or directory".data

def lsResult (n : Int) : CompletedProcess :=
  { args := "ls /nonexistent", returncode := n, stdout := [], stderr := lsStderr }

/-! ### Thought extraction (`_show_analysis`, lines 156–163)

```
while '<think>' in remaining and '</think>' in remaining:
    think_start = remaining.find('<think>') + len('<think>')
    think_end = remaining.find('</think>')
    if think_start > -1 and think_end > -1:
        thoughts.append(remaining[think_start:think_end].strip())
        remaining = remaining[think_end + len('</think>'):]
```
(Inside the loop both markers are present, so both `find` results are
non-negative and the inner guard is always true.) -/

def openTag : List Char := "<think>".data

def closeTag : List Char := "</think>".data

/-- Python `pat in s` (substring containment). -/
def hasSub (pat : List Char) : List Char → Bool
  | [] => pat.isPrefixOf []
  | c :: rest => pat.isPrefixOf (c :: rest) || hasSub pat rest

/-- Python `s.find(pat)`: index of the first occurrence (`none` for `-1`). -/
def findSub : List Char → List Char → Option Nat
  | [], pat => if pat.isPrefixOf ([] : List Char) then some 0 else none
  | c :: rest, pat =>
    if pat.isPrefixOf (c :: rest) then some 0
    else (findSub rest pat).map (· + 1)

/-- Python slicing `s[a:b]` with non-negative bounds (empty when `a ≥ b`). -/
def pySlice (s : List Char) (a b : Nat) : List Char := (s.take b).drop a

/-- One iteration of the extraction loop: the appended (stripped) slice
`remaining[think_start:think_end].strip()` and the new remainder
`remaining[think_end + len('</think>'):]`. -/
def thoughtStep (rem : List Char) : List Char × List Char :=
  let ts := (findSub rem openTag).getD 0 + openTag.length
  let te := (findSub rem closeTag).getD 0
  (pyStrip (pySlice rem ts te), rem.drop (te + closeTag.length))

/-- The extraction loop, indexed by a fuel bound on the number of
iterations.  Each iteration shortens the remainder by at least
`closeTag.length`, so `rem.length` fuel always reaches the loop's exit
condition (theorem `c10_thought_loop_terminates`): the fuel-exhaustion
branch is never taken and the function models the unbounded `while`
faithfully. -/
def thoughtLoopF : Nat → List Char → List (List Char) →
    List (List Char) × List Char
  | 0, rem, acc => (acc, rem)
  | fuel + 1, rem, acc =>
    if hasSub openTag rem && hasSub closeTag rem then
      thoughtLoopF fuel (thoughtStep rem).2 (acc ++ [(thoughtStep rem).1])
    else (acc, rem)

/-- `(thoughts, remaining)` after the extraction loop. -/
def extractThoughts (s : List Char) : List (List Char) × List Char :=
  thoughtLoopF s.length s []

/-! ### Section regexes (`_show_analysis`, lines 207–213)

Five `re.search` calls with `re.DOTALL` over `remaining`:
* cause: label `🔍 Root Cause: `, capture `(.+?)` up to a lookahead for a
  newline followed by the Fix/Explanation/Risks/Prevention emoji, or `$`;
* fix: label `🛠️ Fix: `, capture either backtick-delimited content
  (one to three backticks each side, lazy inside) or one or more
  non-newline characters;
* explanation: label `📚 Technical Explanation: `, lookahead Risks /
  Prevention / `$`;
* risk: label `⚠️ Potential Risks: `, lookahead Prevention / `$`;
* prevention: label `🔒 Prevention Tip: `, lookahead newline / `$`.
The emoji are spelled by code point (`🛠️` and `⚠️` carry U+FE0F). -/

def emCause : Char := Char.ofNat 0x1F50D

def emWrench : Char := Char.ofNat 0x1F6E0

def emVS16 : Char := Char.ofNat 0xFE0F

def emBooks : Char := Char.ofNat 0x1F4DA

def emWarn : Char := Char.ofNat 0x26A0

def emLock : Char := Char.ofNat 0x1F512

def causeLabel : List Char := emCause :: " Root Cause: ".data

def fixLabel : List Char := emWrench :: emVS16 :: " Fix: ".data

def explanationLabel : List Char := emBooks :: " Technical Explanation: ".data

def riskLabel : List Char := emWarn :: emVS16 :: " Potential Risks: ".data

def preventionLabel : List Char := emLock :: " Prevention Tip: ".data

def causeMarkers : List (List Char) :=
  [['\n', emWrench, emVS16], ['\n', emBooks], ['\n', emWarn, emVS16],
    ['\n', emLock]]

def explanationMarkers : List (List Char) :=
  [['\n', emWarn, emVS16], ['\n', emLock]]

def riskMarkers : List (List Char) := [['\n', emLock]]

def preventionMarkers : List (List Char) := [['\n']]

/-- `$` without `re.MULTILINE`: end of string, or just before a newline
that ends the string. -/
def dollarEnd (rest : List Char) : Bool := rest.isEmpty || rest == ['\n']

/-- The lookahead: one of the marker strings begins here, or `$`. -/
def lookAt (markers : List (List Char)) (rest : List Char) : Bool :=
  markers.any (fun m => m.isPrefixOf rest) || dollarEnd rest

/-- Lazy `(.+?)(?=...)`: consume at least one character, then the shortest
further extension after which the lookahead holds. -/
def lazyFrom (look : List Char → Bool) : List Char → Option (List Char)
  | [] => none
  | c :: rest =>
    if look rest then some [c] else (lazyFrom look rest).map (c :: ·)

/-- `re.search` for a pattern `label ⬝ capture`: try the pattern at each
position left to right; where the label matches but the capture fails, the
scan moves on one position. -/
def searchCapture (label : List Char)
    (cap : List Char → Option (List Char)) : List Char → Option (List Char)
  | [] => none
  | c :: rest =>
    if label.isPrefixOf (c :: rest) then
      match cap (List.drop label.length (c :: rest)) with
      | some p => some p
      | none => searchCapture label cap rest
    else searchCapture label cap rest

def extractSection (label : List Char) (markers : List (List Char))
    (s : List Char) : Option (List Char) :=
  searchCapture label (lazyFrom (lookAt markers)) s

def extractCause (s : List Char) : Option (List Char) :=
  extractSection causeLabel causeMarkers s

def extractExplanation (s : List Char) : Option (List Char) :=
  extractSection explanationLabel explanationMarkers s

def extractRisk (s : List Char) : Option (List Char) :=
  extractSection riskLabel riskMarkers s

def extractPrevention (s : List Char) : Option (List Char) :=
  extractSection preventionLabel preventionMarkers s

def backtick : Char := Char.ofNat 0x60

/-- Length of the run of backticks at the head of the string. -/
def btRun (s : List Char) : Nat := (s.takeWhile (fun c => c == backtick)).length

/-- The backtick alternative with a fixed opening-delimiter length `o`
(greedy open requires `o` leading backticks, lazy content runs to the first
backtick, greedy close takes up to three backticks).  Returns group 1,
delimiters included.  The three character roles are disjoint here exactly as
in the regex, so this maximal-munch reading matches the backtracking
engine. -/
def fixAlt1Try (rest : List Char) (o : Nat) : Option (List Char) :=
  if o ≤ btRun rest then
    match findSub (rest.drop o) [backtick] with
    | some k =>
      some (rest.take (o + k + min 3 (btRun ((rest.drop o).drop k))))
    | none => none
  else none

/-- Greedy `{1,3}` on the opening delimiter: try three, two, then one. -/
def fixAlt1 (rest : List Char) : Option (List Char) :=
  (fixAlt1Try rest 3).orElse fun _ =>
    (fixAlt1Try rest 2).orElse fun _ => fixAlt1Try rest 1

/-- The `[^\n]+` alternative: one or more non-newline characters, greedy. -/
def fixPlain (rest : List Char) : Option (List Char) :=
  let t := rest.takeWhile (fun c => c != '\n')
  if t.isEmpty then none else some t

/-- The Fix capture: backtick alternative first, then the plain one. -/
def fixCapture (rest : List Char) : Option (List Char) :=
  (fixAlt1 rest).orElse fun _ => fixPlain rest

def extractFix (s : List Char) : Option (List Char) :=
  searchCapture fixLabel fixCapture s

/-- The five optional section captures of `_show_analysis`. -/
structure ParsedComponents where
  cause : Option (List Char)
  fix : Option (List Char)
  explanation : Option (List Char)
  risk : Option (List Char)
  prevention : Option (List Char)

def parseComponents (remaining : List Char) : ParsedComponents :=
  { cause := extractCause remaining
    fix := extractFix remaining
    explanation := extractExplanation remaining
    risk := extractRisk remaining
    prevention := extractPrevention remaining }

/-- Thought extraction followed by section extraction on the remainder. -/
def parseResponse (solution : List Char) :
    List (List Char) × ParsedComponents :=
  let tr := extractThoughts solution
  (tr.1, parseComponents tr.2)

/-- The minimal-stopping characterisation of a lazily captured section: the
text decomposes as prefix, label, nonempty content and remainder, the
remainder being the first position (after at least one content character)
at which one of the section's lookahead markers begins or the text ends. -/
def SectionSpec (label : List Char) (markers : List (List Char))
    (s p : List Char) : Prop :=
  ∃ pre r, s = pre ++ label ++ (p ++ r) ∧ p ≠ [] ∧
    lookAt markers r = true ∧
    ∀ k, 0 < k → k < p.length → lookAt markers (List.drop k p ++ r) = false

/-- C3 counterexample input: a Prevention Tip whose content spans two lines,
with no further label following. -/
def c3PrevInput : List Char :=
  preventionLabel ++ "use version control\nand backups".data

/-! ### Context-fragment accessors (`_get_additional_context`, lines 286–340)

Subprocess and filesystem effects are explicit oracle values; an operation
that can raise is `Except Unit`-valued.  Note that in `_get_file_context`
(line 323) `cwd = os.getcwd()` stands OUTSIDE the `try` block. -/

/-- Python `l[-n:]`. -/
def lastN {α : Type} (n : Nat) (l : List α) : List α :=
  l.drop (l.length - n)

structure World where
  /-- result of `os.getcwd()`; `.error` models a raised `OSError`
  (for instance, the current working directory was deleted). -/
  getcwdResult : Except Unit String
  /-- result of `os.listdir(cwd)`; `.error` models a raised `OSError`. -/
  listdirResult : Except Unit (List String)
  isfile : String → Bool
  isdir : String → Bool
  /-- stdout of `ps -ef --forest`; `.error` models a raised exception. -/
  psResult : Except Unit (List Char)
  /-- stdout of `ss -tulpn`; `.error` models a raised exception. -/
  ssResult : Except Unit (List Char)
  /-- `os.getenv(name, '')` (never raises). -/
  getenv : String → String
  /-- the two git subprocesses; `.error` models a raised exception. -/
  gitStatusResult : Except Unit (List Char)
  gitRemotesResult : Except Unit (List Char)

structure FileContext where
  files : List String
  dirs : List String
deriving DecidableEq

/-- `_get_relevant_env_vars` (lines 301–309): fixed six-name allow-list,
no exception possible. -/
def get_relevant_env_vars (w : World) : List (String × String) :=
  [("PATH", w.getenv "PATH"), ("SHELL", w.getenv "SHELL"),
    ("USER", w.getenv "USER"), ("HOME", w.getenv "HOME"),
    ("PWD", w.getenv "PWD"), ("OLDPWD", w.getenv "OLDPWD")]

/-- `_get_process_tree` (lines 311–320): entire body inside `try`; failure
absorbed to `[]`; otherwise the last 10 lines of the stripped output. -/
def get_process_tree (w : World) : List (List Char) :=
  match w.psResult with
  | .error _ => []
  | .ok out => lastN 10 (splitOnNl (pyStrip out))

/-- `_get_network_state` (lines 332–340): absorbed to `[]` on failure;
otherwise the first 5 lines. -/
def get_network_state (w : World) : List (List Char) :=
  match w.ssResult with
  | .error _ => []
  | .ok out => (splitOnNl (pyStrip out)).take 5

/-- `_get_git_context` (lines 342–361): both subprocess calls inside `try`;
absorbed to an empty dict on failure. -/
def get_git_context (w : World) : List (String × List Char) :=
  match w.gitStatusResult, w.gitRemotesResult with
  | .ok st, .ok rem => [("git_status", st), ("git_remotes", rem)]
  | _, _ => []

/-- `_get_file_context` (lines 322–330): `cwd = os.getcwd()` is evaluated
before the `try`, so a `getcwd` failure PROPAGATES; only the
`listdir`/`isfile`/`isdir` body is guarded and absorbed to `{}`. -/
def get_file_context (w : World) : Except Unit FileContext :=
  match w.getcwdResult with
  | .error e => .error e
  | .ok _cwd =>
    match w.listdirResult with
    | .error _ => .ok { files := [], dirs := [] }
    | .ok entries =>
      .ok { files := (entries.filter w.isfile).take 10
            dirs := (entries.filter w.isdir).take 5 }

structure AdditionalContext where
  env_vars : List (String × String)
  process_tree : List (List Char)
  file_context : FileContext
  network_state : List (List Char)
  git : List (String × List Char)

/-- `_get_additional_context` (lines 286–299): no `try` of its own, so an
exception escaping `_get_file_context` propagates out of the whole
context-gathering step. -/
def get_additional_context (lastCommand : String) (w : World) :
    Except Unit AdditionalContext :=
  match get_file_context w with
  | .error e => .error e
  | .ok fc =>
    .ok { env_vars := get_relevant_env_vars w
          process_tree := get_process_tree w
          file_context := fc
          network_state := get_network_state w
          git := if ("git ".data).isPrefixOf lastCommand.data then
              get_git_context w
            else [] }

/-- A state in which the current working directory can no longer be
resolved: `os.getcwd()` raises. -/
def deletedCwdWorld : World :=
  { getcwdResult := .error ()
    listdirResult := .ok []
    isfile := fun _ => false
    isdir := fun _ => false
    psResult := .ok []
    ssResult := .ok []
    getenv := fun _ => ""
    gitStatusResult := .ok []
    gitRemotesResult := .ok [] }

/-- A state in which `getcwd` succeeds but every other effect fails:
`listdir`, `ps`, `ss` and the git subprocesses all raise. -/
def allCollectorsFailWorld : World :=
  { getcwdResult := .ok "/tmp"
    listdirResult := .error ()
    isfile := fun _ => false
    isdir := fun _ => false
    psResult := .error ()
    ssResult := .error ()
    getenv := fun _ => ""
    gitStatusResult := .error ()
    gitRemotesResult := .error () }

/-! ### History lemmas -/

theorem dequeAppend_length_le (cap : Nat) (h : List String) (c : String)
    (hh : h.length ≤ cap) : (dequeAppend cap h c).length ≤ cap := by
  simp only [dequeAppend, List.length_drop, List.length_append,
    List.length_singleton]
  omega

theorem dequeAppend_getLast? (cap : Nat) (hcap : 1 ≤ cap)
    (h : List String) (c : String) :
    (dequeAppend cap h c).getLast? = some c := by
  have hle : (h ++ [c]).length - cap ≤ h.length := by
    simp only [List.length_append, List.length_singleton]
    omega
  simp only [dequeAppend]
  rw [List.drop_append_of_le_length hle]
  exact List.getLast?_concat _

theorem runCommandSubmit_getLast? (h : List String) (c : String) :
    (runCommandSubmit h c).getLast? = some c := by
  unfold runCommandSubmit
  cases hl : h.getLast? with
  | none => simpa using dequeAppend_getLast? 20 (by omega) h c
  | some lastCmd =>
    by_cases hc : c = lastCmd
    · subst hc
      simp [hl, dequeAppend_getLast? 20 (by omega) h c]
    · simp only [hl]
      have : (c != lastCmd) = true := by
        simpa using hc
      simp [this, dequeAppend_getLast? 20 (by omega) h c]

theorem runCommandSubmit_of_getLast? (h : List String) (c : String)
    (hl : h.getLast? = some c) : runCommandSubmit h c = h := by
  unfold runCommandSubmit
  simp [hl]

theorem submitStep_getLast? (h : List String) (e : Submission) :
    (submitStep h e).getLast? = some e.cmd := by
  cases e with
  | run c => exact runCommandSubmit_getLast? h c
  | auto c => exact dequeAppend_getLast? 20 (by omega) h c

theorem submitStep_length_le (h : List String) (e : Submission)
    (hh : h.length ≤ 20) : (submitStep h e).length ≤ 20 := by
  cases e with
  | run c =>
    unfold submitStep runCommandSubmit
    cases h.getLast? <;> dsimp only <;>
      split <;> first
        | exact dequeAppend_length_le 20 h c hh
        | exact hh
  | auto c => exact dequeAppend_length_le 20 h c hh

theorem foldl_submit_length_le (evs : List Submission) :
    ∀ h : List String, h.length ≤ 20 →
      (evs.foldl submitStep h).length ≤ 20 := by
  induction evs with
  | nil => intro h hh; simpa using hh
  | cons e rest ih =>
    intro h hh
    simpa using ih (submitStep h e) (submitStep_length_le h e hh)

/-- **C1, counterexample.** Submitting the same command twice in immediate
succession through `auto_analyze` leaves two consecutive copies of it in the
history, refuting the claim that no consecutive duplicates ever appear. -/
theorem c1_counterexample :
    submitAll [Submission.auto "x", Submission.auto "x"] = ["x", "x"] ∧
    ¬ List.Chain' (fun a b => a ≠ b)
        (submitAll [Submission.auto "x", Submission.auto "x"]) := by
  refine ⟨rfl, ?_⟩
  intro hch
  rw [show submitAll [Submission.auto "x", Submission.auto "x"]
        = ["x", "x"] from rfl] at hch
  rw [List.chain'_cons] at hch
  exact hch.1 rfl

/-- **C1 (amended).** Duplicate suppression holds for `run_command`
submissions: submitting the same command again immediately leaves the history
unchanged (submission is idempotent). `auto_analyze`, however, appends
unconditionally, so consecutive duplicates do occur through it. -/
theorem c1_run_dedup_auto_duplicates :
    (∀ (h : List String) (c : String),
        runCommandSubmit (runCommandSubmit h c) c = runCommandSubmit h c) ∧
    autoAnalyzeSubmit (autoAnalyzeSubmit [] "x") "x" = ["x", "x"] := by
  refine ⟨?_, rfl⟩
  intro h c
  exact runCommandSubmit_of_getLast? _ c (runCommandSubmit_getLast? h c)

/-- **C2.** Over every sequence of submissions the history never exceeds 20
entries; after each submission the submitted command is the last element; and
each submission either leaves the history unchanged (duplicate suppressed) or
appends the command at the tail, evicting exactly the oldest entries beyond
capacity 20 (insertion order preserved). -/
theorem c2_history_invariant :
    (∀ evs : List Submission, (submitAll evs).length ≤ 20) ∧
    (∀ (evs : List Submission) (e : Submission),
        (submitAll (evs ++ [e])).getLast? = some e.cmd) ∧
    (∀ (evs : List Submission) (e : Submission),
        submitStep (submitAll evs) e = submitAll evs ∨
        submitStep (submitAll evs) e =
          (submitAll evs ++ [e.cmd]).drop
            ((submitAll evs).length + 1 - 20)) := by
  refine ⟨?_, ?_, ?_⟩
  · intro evs
    exact foldl_submit_length_le evs [] (by simp)
  · intro evs e
    unfold submitAll
    rw [List.foldl_append]
    exact submitStep_getLast? _ e
  · intro evs e
    cases e with
    | run c =>
      unfold submitStep runCommandSubmit
      dsimp only
      split
      · right
        simp [dequeAppend, Submission.cmd]
      · left; rfl
    | auto c =>
      right
      simp [submitStep, autoAnalyzeSubmit, dequeAppend, Submission.cmd]

/-! ### Sanitisation lemmas -/

theorem pyStrip_sublist (s : List Char) : (pyStrip s).Sublist s :=
  ((List.rdropWhile_prefix isPySpace _).sublist).trans
    ((List.dropWhile_suffix isPySpace).sublist)

theorem mem_of_mem_pyStrip {c : Char} {s : List Char} (h : c ∈ pyStrip s) :
    c ∈ s :=
  (pyStrip_sublist s).subset h

theorem pyStrip_idem (s : List Char) : pyStrip (pyStrip s) = pyStrip s := by
  unfold pyStrip
  have hdrop : List.dropWhile isPySpace
      (List.rdropWhile isPySpace (List.dropWhile isPySpace s)) =
      List.rdropWhile isPySpace (List.dropWhile isPySpace s) := by
    cases ht : List.rdropWhile isPySpace (List.dropWhile isPySpace s) with
    | nil => rfl
    | cons c t' =>
      have hpre := List.rdropWhile_prefix isPySpace (List.dropWhile isPySpace s)
      rw [ht] at hpre
      obtain ⟨r, hr⟩ := hpre
      have hne : List.dropWhile isPySpace s ≠ [] := by
        rw [← hr]; simp
      have hhead : isPySpace c = false := by
        have h2 := List.head_dropWhile_not isPySpace s hne
        have h3 : (List.dropWhile isPySpace s).head hne = c := by
          have hu : List.dropWhile isPySpace s = c :: (t' ++ r) := by
            rw [← hr]; rfl
          simp only [hu, List.head_cons]
        rwa [h3] at h2
      rw [List.dropWhile_cons, hhead]
      simp
  rw [hdrop, List.rdropWhile_idempotent]

theorem ansiMatch_some_head {s r : List Char} (h : ansiMatch s = some r) :
    ∃ rest, s = '\x1B' :: '[' :: rest := by
  unfold ansiMatch at h
  split at h
  · rename_i rest
    exact ⟨rest, rfl⟩
  · exact absurd h (by simp)

theorem ansiMatch_some_length {s r : List Char} (h : ansiMatch s = some r) :
    r.length < s.length := by
  unfold ansiMatch at h
  split at h
  · rename_i rest
    split at h
    · rename_i c r2 heq
      split at h
      · injection h with h
        subst h
        have h1 : ((rest.dropWhile isParamByte).dropWhile isInterByte).length ≤
            rest.length :=
          le_trans ((List.dropWhile_suffix isInterByte).sublist.length_le)
            ((List.dropWhile_suffix isParamByte).sublist.length_le)
        rw [heq] at h1
        simp only [List.length_cons] at h1 ⊢
        omega
      · exact absurd h (by simp)
    · exact absurd h (by simp)
  · exact absurd h (by simp)

theorem ansiMatch_none_of_head {c : Char} {rest : List Char}
    (hc : c ≠ '\x1B') : ansiMatch (c :: rest) = none := by
  cases h : ansiMatch (c :: rest) with
  | none => rfl
  | some r =>
    obtain ⟨rest', heq⟩ := ansiMatch_some_head h
    injection heq with h1 _
    exact absurd h1 hc

theorem ansiSubF_of_not_mem :
    ∀ (fuel : Nat) (s : List Char), '\x1B' ∉ s → ansiSubF fuel s = s := by
  intro fuel
  induction fuel with
  | zero => intro s _; cases s <;> rfl
  | succ f ih =>
    intro s h
    cases s with
    | nil => rfl
    | cons c rest =>
      have hc : c ≠ '\x1B' := fun e => h (e ▸ List.mem_cons_self c rest)
      simp only [ansiSubF, ansiMatch_none_of_head hc]
      rw [ih rest (fun hm => h (List.mem_cons_of_mem c hm))]

theorem ansiSub_of_not_mem {s : List Char} (h : '\x1B' ∉ s) :
    ansiSub s = s :=
  ansiSubF_of_not_mem s.length s h

/-- **C6, counterexample.** The sanitisation is not idempotent: on
`ESC [ 0 ESC [ m m` one pass removes `ESC [ m` and leaves the freshly spliced
escape sequence `ESC [ 0 m`, which a second pass removes. -/
theorem c6_counterexample :
    sanitizeOutput ansiCex = ['\x1B', '[', '0', 'm'] ∧
    sanitizeOutput (sanitizeOutput ansiCex) ≠ sanitizeOutput ansiCex := by
  decide

/-- **C6 (amended).** Sanitisation is idempotent on every input whose first
pass leaves no ESC character (in particular on any text free of escape
sequences); in general a second pass can strip further sequences spliced
together by the first. -/
theorem c6_sanitize_idem_of_no_esc (s : List Char)
    (h : '\x1B' ∉ ansiSub s) :
    sanitizeOutput (sanitizeOutput s) = sanitizeOutput s := by
  have h1 : '\x1B' ∉ pyStrip (ansiSub s) := fun hm => h (mem_of_mem_pyStrip hm)
  show pyStrip (ansiSub (pyStrip (ansiSub s))) = pyStrip (ansiSub s)
  rw [ansiSub_of_not_mem h1, pyStrip_idem]

theorem c6_witness :
    sanitizeOutput (sanitizeOutput "\x1B[31mhello".data) =
      sanitizeOutput "\x1B[31mhello".data :=
  c6_sanitize_idem_of_no_esc _ (by decide)

/-- **C8.** For the `ls /nonexistent` scenario (empty stdout, the given
stderr, any nonzero exit code) the assembled context has `error_output`
equal to the stderr text, `command` equal to `ls /nonexistent`, and
`exit_code` equal to the reported value. -/
theorem c8_ls_nonexistent (n : Int) (_hn : n ≠ 0) (cwd : String)
    (history : List String) (manPage : List Char → List Char) :
    (buildErrorContext "ls /nonexistent" (lsResult n) cwd history
        manPage).error_output = lsStderr ∧
    (buildErrorContext "ls /nonexistent" (lsResult n) cwd history
        manPage).command = "ls /nonexistent" ∧
    (buildErrorContext "ls /nonexistent" (lsResult n) cwd history
        manPage).exit_code = n := by
  refine ⟨?_, rfl, rfl⟩
  show getFullErrorOutput (lsResult n) = lsStderr
  show sanitizeOutput (mergeOutputs (lsResult n)) = lsStderr
  have hm : mergeOutputs (lsResult n) = lsStderr := rfl
  rw [hm]
  decide

theorem c8_witness :
    (buildErrorContext "ls /nonexistent" (lsResult 2) "" []
        (fun _ => [])).error_output = lsStderr ∧
    (buildErrorContext "ls /nonexistent" (lsResult 2) "" []
        (fun _ => [])).command = "ls /nonexistent" ∧
    (buildErrorContext "ls /nonexistent" (lsResult 2) "" []
        (fun _ => [])).exit_code = 2 :=
  c8_ls_nonexistent 2 (by decide) "" [] (fun _ => [])

/-- **C9.** The bundle submitted to the reasoning boundary is identical
whether or not `SHELLSAGE_DEBUG` is set, so is anything computed from it
(two-run noninterference); the flag only prepends a diagnostic dump line to
the terminal output. -/
theorem c9_debug_noninterference
    (dump : ErrorContext → String) (d1 d2 : Bool) (lastCommand : String)
    (result : CompletedProcess) (cwd : String) (history : List String)
    (manPage : List Char → List Char) (llm : ErrorContext → Option String) :
    (handleErrorSubmission dump d1 lastCommand result cwd history
        manPage).1 =
      (handleErrorSubmission dump d2 lastCommand result cwd history
        manPage).1 ∧
    llm (handleErrorSubmission dump d1 lastCommand result cwd history
        manPage).1 =
      llm (handleErrorSubmission dump d2 lastCommand result cwd history
        manPage).1 ∧
    (handleErrorSubmission dump true lastCommand result cwd history
        manPage).2 =
      ("[DEBUG] Error Context:" ++
          dump (buildErrorContext lastCommand result cwd history manPage)) ::
        (handleErrorSubmission dump false lastCommand result cwd history
          manPage).2 :=
  ⟨rfl, rfl, rfl⟩

/-! ### Manual-page lemmas -/

theorem manStep_length_le (line : List Char) (current : Option (List Char))
    (secs : List (List Char)) :
    (manStep line current secs).2.length ≤ secs.length + 1 := by
  unfold manStep
  split
  · simp
  · split
    · simp
    · simp

theorem manLoop_length_le :
    ∀ (lines : List (List Char)) (current : Option (List Char))
      (secs : List (List Char)), secs.length ≤ 10 →
      (manLoop lines current secs).length ≤ 11 := by
  intro lines
  induction lines with
  | nil =>
    intro current secs h
    unfold manLoop
    omega
  | cons line rest ih =>
    intro current secs h
    have hstep := manStep_length_le line current secs
    unfold manLoop
    dsimp only
    split
    · omega
    · rename_i hle
      exact ih _ _ (by omega)

theorem splitOnNl_ne_nil (s : List Char) : splitOnNl s ≠ [] := by
  induction s with
  | nil => simp [splitOnNl]
  | cons c rest _ =>
    unfold splitOnNl
    split
    · simp
    · cases h : splitOnNl rest with
      | nil => simp
      | cons l ls => simp

theorem not_mem_of_mem_splitOnNl :
    ∀ (s : List Char) (l : List Char), l ∈ splitOnNl s → '\n' ∉ l := by
  intro s
  induction s with
  | nil =>
    intro l hl
    simp only [splitOnNl, List.mem_singleton] at hl
    subst hl; simp
  | cons c rest ih =>
    intro l hl
    unfold splitOnNl at hl
    by_cases hc : c = '\n'
    · rw [if_pos hc] at hl
      rcases List.mem_cons.mp hl with h | h
      · subst h; simp
      · exact ih l h
    · rw [if_neg hc] at hl
      cases hsp : splitOnNl rest with
      | nil => exact absurd hsp (splitOnNl_ne_nil rest)
      | cons l0 ls =>
        rw [hsp] at hl
        rcases List.mem_cons.mp hl with h | h
        · subst h
          intro hmem
          rcases List.mem_cons.mp hmem with h1 | h1
          · exact hc h1.symm
          · exact ih l0 (by rw [hsp]; exact List.mem_cons_self l0 ls) h1
        · exact ih l (by rw [hsp]; exact List.mem_cons_of_mem l0 h)

theorem splitOnNl_of_not_mem {l : List Char} (h : '\n' ∉ l) :
    splitOnNl l = [l] := by
  induction l with
  | nil => rfl
  | cons c rest ih =>
    have hc : ¬ c = '\n' := fun e => h (by simp [e])
    unfold splitOnNl
    rw [if_neg hc, ih (fun hm => h (List.mem_cons_of_mem c hm))]

theorem splitOnNl_append_cons {l : List Char} (h : '\n' ∉ l)
    (t : List Char) : splitOnNl (l ++ '\n' :: t) = l :: splitOnNl t := by
  induction l with
  | nil =>
    simp only [List.nil_append]
    simp only [splitOnNl]
    rw [if_pos trivial]
  | cons c rest ih =>
    have hc : ¬ c = '\n' := fun e => h (by simp [e])
    simp only [List.cons_append]
    simp only [splitOnNl]
    rw [if_neg hc, ih (fun hm => h (List.mem_cons_of_mem c hm))]

theorem splitOnNl_joinNl :
    ∀ ls : List (List Char), ls ≠ [] → (∀ l ∈ ls, '\n' ∉ l) →
      splitOnNl (joinNl ls) = ls := by
  intro ls
  induction ls with
  | nil => intro h _; exact absurd rfl h
  | cons l ls2 ih =>
    intro _ hnl
    cases ls2 with
    | nil =>
      show splitOnNl (joinNl [l]) = [l]
      exact splitOnNl_of_not_mem (hnl l (by simp))
    | cons l2 ls3 =>
      show splitOnNl (l ++ '\n' :: joinNl (l2 :: ls3)) = l :: l2 :: ls3
      rw [splitOnNl_append_cons (hnl l (by simp))]
      rw [ih (by simp) (fun x hx => hnl x (List.mem_cons_of_mem l hx))]

theorem mem_manStep {e line : List Char} {current : Option (List Char)}
    {secs : List (List Char)}
    (h : e ∈ (manStep line current secs).2) :
    e ∈ secs ∨ e = line ∨ e = pyStrip line := by
  unfold manStep at h
  by_cases h1 : manHeaders.contains (lineUpper line) = true
  · rw [if_pos h1] at h
    rcases List.mem_append.mp h with h | h
    · exact Or.inl h
    · simp only [List.mem_singleton] at h
      exact Or.inr (Or.inl h)
  · rw [if_neg h1] at h
    by_cases h2 : (currentTruthy current && startsWithSpace line) = true
    · rw [if_pos h2] at h
      rcases List.mem_append.mp h with h | h
      · exact Or.inl h
      · simp only [List.mem_singleton] at h
        exact Or.inr (Or.inr h)
    · rw [if_neg h2] at h
      exact Or.inl h

theorem manLoop_no_nl :
    ∀ (lines : List (List Char)) (current : Option (List Char))
      (secs : List (List Char)),
      (∀ l ∈ lines, '\n' ∉ l) → (∀ e ∈ secs, '\n' ∉ e) →
      ∀ e ∈ manLoop lines current secs, '\n' ∉ e := by
  intro lines
  induction lines with
  | nil =>
    intro current secs _ hsecs e he
    unfold manLoop at he
    exact hsecs e he
  | cons line rest ih =>
    intro current secs hlines hsecs e he
    have hstepmem : ∀ x ∈ (manStep line current secs).2, '\n' ∉ x := by
      intro x hx
      rcases mem_manStep hx with h | h | h
      · exact hsecs x h
      · subst h; exact hlines _ (by simp)
      · subst h
        intro hm
        exact hlines _ (by simp) (mem_of_mem_pyStrip hm)
    unfold manLoop at he
    dsimp only at he
    split at he
    · exact hstepmem e he
    · exact ih _ _ (fun l hl => hlines l (List.mem_cons_of_mem line hl))
        hstepmem e he

/-- **C4, counterexample.** On a manual page consisting of a `NAME` header
followed by twelve indented continuation lines the returned excerpt has 11
lines, refuting the never-more-than-10 bound. -/
theorem c4_counterexample :
    lineCount (manExcerpt manCexContent) = 11 ∧
    ¬ lineCount (manExcerpt manCexContent) ≤ 10 := by
  decide

/-- **C4 (amended).** The break fires only once more than 10 lines have been
collected, so the excerpt returned on a successful manual lookup never
contains more than 11 lines (one more than the claimed 10). -/
theorem c4_manExcerpt_le_11_lines (content : List Char) :
    lineCount (manExcerpt content) ≤ 11 := by
  unfold manExcerpt lineCount
  cases h : manExcerptSections content with
  | nil =>
    simp [joinNl, splitOnNl]
  | cons l ls =>
    rw [← h]
    have hnn : ∀ e ∈ manExcerptSections content, '\n' ∉ e :=
      manLoop_no_nl _ none [] (not_mem_of_mem_splitOnNl content) (by simp)
    rw [splitOnNl_joinNl _ (by rw [h]; simp) hnn]
    exact manLoop_length_le (splitOnNl content) none [] (by simp)

/-! ### Thought-extraction lemmas -/

theorem findSub_isSome_eq_hasSub :
    ∀ (s pat : List Char), (findSub s pat).isSome = hasSub pat s := by
  intro s pat
  induction s with
  | nil =>
    by_cases hp : pat.isPrefixOf ([] : List Char) = true
    · simp [findSub, hasSub, hp]
    · simp [findSub, hasSub, hp]
  | cons c rest ih =>
    by_cases hp : pat.isPrefixOf (c :: rest) = true
    · simp [findSub, hasSub, hp]
    · simp only [findSub, hasSub]
      rw [if_neg hp]
      cases hfs : findSub rest pat with
      | none =>
        rw [hfs] at ih
        simp only [Option.map_none', Option.isSome_none]
        simp [← ih]
        exact Bool.eq_false_iff.mpr hp
      | some j =>
        rw [hfs] at ih
        simp only [Option.map_some', Option.isSome_some] at ih ⊢
        simp [← ih]

theorem findSub_some_prefix :
    ∀ {s pat : List Char} {i : Nat}, findSub s pat = some i →
      pat.isPrefixOf (s.drop i) = true := by
  intro s
  induction s with
  | nil =>
    intro pat i h
    unfold findSub at h
    split at h
    · rename_i hp
      injection h with h
      subst h
      simpa using hp
    · exact absurd h (by simp)
  | cons c rest ih =>
    intro pat i h
    unfold findSub at h
    split at h
    · rename_i hp
      injection h with h
      subst h
      simpa using hp
    · cases hfs : findSub rest pat with
      | none => rw [hfs] at h; exact absurd h (by simp)
      | some j =>
        rw [hfs] at h
        simp only [Option.map_some'] at h
        injection h with h
        subst h
        simpa using ih hfs

theorem findSub_some_le {s pat : List Char} {i : Nat}
    (h : findSub s pat = some i) (hne : pat ≠ []) :
    i + pat.length ≤ s.length := by
  have hp := findSub_some_prefix h
  have hpre : pat <+: s.drop i := List.isPrefixOf_iff_prefix.mp hp
  have hlen := hpre.length_le
  rw [List.length_drop] at hlen
  have hpos : 0 < pat.length := List.length_pos.mpr hne
  omega

theorem thoughtStep_length (rem : List Char)
    (hc : hasSub closeTag rem = true) :
    (thoughtStep rem).2.length + closeTag.length ≤ rem.length := by
  have hsome : (findSub rem closeTag).isSome = true := by
    rw [findSub_isSome_eq_hasSub]; exact hc
  obtain ⟨te, hte⟩ := Option.isSome_iff_exists.mp hsome
  have hle := findSub_some_le hte (by decide)
  show (rem.drop ((findSub rem closeTag).getD 0 + closeTag.length)).length +
      closeTag.length ≤ rem.length
  rw [hte]
  simp only [Option.getD_some, List.length_drop]
  omega

theorem thoughtLoopF_fuel_irrel :
    ∀ (f1 f2 : Nat) (s : List Char) (acc : List (List Char)),
      s.length ≤ f1 → s.length ≤ f2 →
      thoughtLoopF f1 s acc = thoughtLoopF f2 s acc := by
  intro f1
  induction f1 with
  | zero =>
    intro f2 s acc h1 _
    have hs : s = [] := List.length_eq_zero.mp (Nat.le_zero.mp h1)
    subst hs
    cases f2 with
    | zero => rfl
    | succ k =>
      show (acc, []) = thoughtLoopF (k + 1) [] acc
      simp only [thoughtLoopF]
      rw [show hasSub openTag [] = false from by decide]
      simp
  | succ f ih =>
    intro f2 s acc h1 h2
    cases f2 with
    | zero =>
      have hs : s = [] := List.length_eq_zero.mp (Nat.le_zero.mp h2)
      subst hs
      show thoughtLoopF (f + 1) [] acc = (acc, [])
      simp only [thoughtLoopF]
      rw [show hasSub openTag [] = false from by decide]
      simp
    | succ k =>
      simp only [thoughtLoopF]
      by_cases hg : (hasSub openTag s && hasSub closeTag s) = true
      · rw [if_pos hg, if_pos hg]
        have hcl : hasSub closeTag s = true := by
          have hg2 := hg
          simp only [Bool.and_eq_true] at hg2
          exact hg2.2
        have hstep := thoughtStep_length s hcl
        have h8 : closeTag.length = 8 := by decide
        exact ih k _ _ (by omega) (by omega)
      · rw [if_neg hg, if_neg hg]

/-- **C10.** The extraction loop terminates on every input: each iteration
shortens the remainder by at least the closing delimiter's length; fuel
equal to the input length always reaches the loop's exit condition (more
fuel never changes the result), so extraction is total; and when the first
closing marker precedes the first opening marker, the iteration appends the
empty slice and continues on the suffix after the closing marker. -/
theorem c10_thought_loop_terminates :
    (∀ rem : List Char, hasSub closeTag rem = true →
        (thoughtStep rem).2.length + closeTag.length ≤ rem.length) ∧
    (∀ (fuel : Nat) (s : List Char) (acc : List (List Char)),
        s.length ≤ fuel →
        thoughtLoopF fuel s acc = thoughtLoopF s.length s acc) ∧
    (∀ (rem : List Char) (toI teI : Nat),
        findSub rem openTag = some toI → findSub rem closeTag = some teI →
        teI ≤ toI → (thoughtStep rem).1 = [] ∧
          (thoughtStep rem).2 = rem.drop (teI + closeTag.length)) := by
  refine ⟨thoughtStep_length, ?_, ?_⟩
  · intro fuel s acc h
    exact thoughtLoopF_fuel_irrel fuel s.length s acc h le_rfl
  · intro rem toI teI hto hte hle
    constructor
    · show pyStrip (pySlice rem ((findSub rem openTag).getD 0 + openTag.length)
          ((findSub rem closeTag).getD 0)) = []
      rw [hto, hte]
      simp only [Option.getD_some]
      have hsl : pySlice rem (toI + openTag.length) teI = [] := by
        unfold pySlice
        have h1 : (rem.take teI).length ≤ teI := by
          simp [List.length_take]
        refine List.drop_eq_nil_of_le ?_
        have h7 : openTag.length = 7 := by decide
        omega
      rw [hsl]
      rfl
    · show rem.drop ((findSub rem closeTag).getD 0 + closeTag.length) = _
      rw [hte]
      simp only [Option.getD_some]

theorem c10_witness :
    ((thoughtStep "</think>x<think>y</think>".data).2.length +
        closeTag.length ≤ ("</think>x<think>y</think>".data).length) ∧
    thoughtLoopF 30 "</think>x<think>y</think>".data [] =
      thoughtLoopF ("</think>x<think>y</think>".data).length
        "</think>x<think>y</think>".data [] ∧
    (thoughtStep "</think>x<think>y</think>".data).1 = [] :=
  ⟨c10_thought_loop_terminates.1 _ (by decide),
    c10_thought_loop_terminates.2.1 30 _ [] (by decide),
    (c10_thought_loop_terminates.2.2 _ 9 0 (by decide) (by decide)
      (by decide)).1⟩

/-- **C7.** A response containing neither thinking delimiter yields an empty
thoughts sequence, leaves the text unchanged, and the section captures are
exactly those of the original text: thought markers are not required for
section parsing. -/
theorem c7_no_markers (s : List Char)
    (h1 : hasSub openTag s = false) (_h2 : hasSub closeTag s = false) :
    (parseResponse s).1 = [] ∧ (extractThoughts s).2 = s ∧
    (parseResponse s).2 = parseComponents s := by
  have hext : extractThoughts s = ([], s) := by
    unfold extractThoughts
    cases hl : s.length with
    | zero => rfl
    | succ k =>
      simp only [thoughtLoopF, h1]
      simp
  refine ⟨?_, ?_, ?_⟩
  · show (extractThoughts s).1 = []
    rw [hext]
  · rw [hext]
  · show parseComponents (extractThoughts s).2 = parseComponents s
    rw [hext]

theorem c7_witness :
    (parseResponse (causeLabel ++ "x".data)).1 = [] ∧
    (extractThoughts (causeLabel ++ "x".data)).2 = causeLabel ++ "x".data ∧
    (parseResponse (causeLabel ++ "x".data)).2 =
      parseComponents (causeLabel ++ "x".data) :=
  c7_no_markers _ (by decide) (by decide)

/-! ### Section-capture lemmas -/

theorem lazyFrom_spec (look : List Char → Bool) :
    ∀ (rest p : List Char), lazyFrom look rest = some p →
      ∃ r, rest = p ++ r ∧ p ≠ [] ∧ look r = true ∧
        ∀ k, 0 < k → k < p.length → look (List.drop k p ++ r) = false := by
  intro rest
  induction rest with
  | nil => intro p h; exact absurd h (by simp [lazyFrom])
  | cons c rest ih =>
    intro p h
    unfold lazyFrom at h
    by_cases hl : look rest = true
    · rw [if_pos hl] at h
      injection h with h
      subst h
      exact ⟨rest, rfl, by simp, hl,
        fun k hk1 hk2 => absurd hk2 (by simp; omega)⟩
    · rw [if_neg hl] at h
      cases hlf : lazyFrom look rest with
      | none => rw [hlf] at h; exact absurd h (by simp)
      | some q =>
        rw [hlf] at h
        simp only [Option.map_some'] at h
        injection h with h
        subst h
        obtain ⟨r, hr, hne, hlook, hmin⟩ := ih q hlf
        refine ⟨r, by rw [List.cons_append, ← hr], by simp, hlook, ?_⟩
        intro k hk1 hk2
        cases k with
        | zero => omega
        | succ j =>
          simp only [List.drop_succ_cons]
          by_cases hj : j = 0
          · subst hj
            rw [List.drop_zero, ← hr]
            exact Bool.eq_false_iff.mpr hl
          · refine hmin j (by omega) ?_
            simp only [List.length_cons] at hk2
            omega

theorem searchCapture_spec (label : List Char)
    (cap : List Char → Option (List Char)) :
    ∀ (s p : List Char), searchCapture label cap s = some p →
      ∃ pre rest, s = pre ++ label ++ rest ∧ cap rest = some p := by
  intro s
  induction s with
  | nil => intro p h; exact absurd h (by simp [searchCapture])
  | cons c rest ih =>
    intro p h
    unfold searchCapture at h
    by_cases hp : label.isPrefixOf (c :: rest) = true
    · rw [if_pos hp] at h
      cases hc : cap (List.drop label.length (c :: rest)) with
      | some q =>
        rw [hc] at h
        injection h with h
        subst h
        obtain ⟨t, ht⟩ := List.isPrefixOf_iff_prefix.mp hp
        refine ⟨[], List.drop label.length (c :: rest), ?_, hc⟩
        rw [List.nil_append]
        conv_lhs => rw [← ht]
        rw [← ht, List.drop_left]
      | none =>
        rw [hc] at h
        obtain ⟨pre, rest2, hdecomp, hcap⟩ := ih p h
        exact ⟨c :: pre, rest2, by simp [hdecomp], hcap⟩
    · rw [if_neg hp] at h
      obtain ⟨pre, rest2, hdecomp, hcap⟩ := ih p h
      exact ⟨c :: pre, rest2, by simp [hdecomp], hcap⟩

theorem extractSection_spec {label : List Char} {markers : List (List Char)}
    {s p : List Char} (h : extractSection label markers s = some p) :
    SectionSpec label markers s p := by
  obtain ⟨pre, rest, hdecomp, hcap⟩ := searchCapture_spec label _ s p h
  obtain ⟨r, hr, hne, hlook, hmin⟩ := lazyFrom_spec (lookAt markers) rest p hcap
  exact ⟨pre, r, by rw [hdecomp, hr], hne, hlook, hmin⟩

theorem extractPrevention_tail_no_nl {s p : List Char}
    (h : extractPrevention s = some p) :
    ∀ c ∈ p.drop 1, c ≠ '\n' := by
  obtain ⟨pre, r, _, _, _, hmin⟩ := extractSection_spec h
  intro c hc hcn
  subst hcn
  obtain ⟨j, hj, hget⟩ := List.mem_iff_getElem.mp hc
  have hj' : 1 + j < p.length := by
    simp only [List.length_drop] at hj
    omega
  have hfalse := hmin (1 + j) (by omega) hj'
  have hne2 : List.drop (1 + j) p ≠ [] := by
    intro he
    have := congrArg List.length he
    simp only [List.length_drop, List.length_nil] at this
    omega
  obtain ⟨c0, d', hd⟩ := List.exists_cons_of_ne_nil hne2
  have hc0 : c0 = '\n' := by
    have hh : (List.drop (1 + j) p).head? = some '\n' := by
      rw [← List.drop_drop, List.head?_drop,
        List.getElem?_eq_getElem hj, hget]
    rw [hd] at hh
    simp only [List.head?_cons, Option.some.injEq] at hh
    exact hh
  have htrue : lookAt preventionMarkers (List.drop (1 + j) p ++ r) = true := by
    rw [hd, hc0]
    simp [lookAt, preventionMarkers, List.isPrefixOf]
  rw [hfalse] at htrue
  exact absurd htrue (by simp)

theorem btRun_pos_head {rest : List Char} (h : 0 < btRun rest) :
    ∃ rs, rest = backtick :: rs := by
  cases rest with
  | nil => simp [btRun] at h
  | cons c0 rs =>
    by_cases hc : (c0 == backtick) = true
    · exact ⟨rs, by rw [eq_of_beq hc]⟩
    · rw [show btRun (c0 :: rs) = 0 from by
        simp [btRun, List.takeWhile_cons, hc]] at h
      omega

theorem fixAlt1Try_head {rest : List Char} {o : Nat} {p : List Char}
    (ho : 0 < o) (h : fixAlt1Try rest o = some p) :
    p.head? = some backtick := by
  unfold fixAlt1Try at h
  by_cases hle : o ≤ btRun rest
  · rw [if_pos hle] at h
    cases hf : findSub (rest.drop o) [backtick] with
    | none => rw [hf] at h; exact absurd h (by simp)
    | some k =>
      rw [hf] at h
      injection h with h
      subst h
      obtain ⟨rs, hrs⟩ := btRun_pos_head (lt_of_lt_of_le ho hle)
      obtain ⟨m, hm⟩ : ∃ m,
          o + k + min 3 (btRun ((rest.drop o).drop k)) = m + 1 :=
        ⟨o + k + min 3 (btRun ((rest.drop o).drop k)) - 1, by omega⟩
      rw [hm, hrs, List.take_succ_cons]
      rfl
  · rw [if_neg hle] at h
    exact absurd h (by simp)

theorem fixAlt1_head {rest p : List Char} (h : fixAlt1 rest = some p) :
    p.head? = some backtick := by
  unfold fixAlt1 at h
  cases h3 : fixAlt1Try rest 3 with
  | some q =>
    rw [h3] at h
    simp only [Option.orElse] at h
    injection h with h
    subst h
    exact fixAlt1Try_head (by omega) h3
  | none =>
    rw [h3] at h
    simp only [Option.orElse] at h
    cases h2 : fixAlt1Try rest 2 with
    | some q =>
      rw [h2] at h
      injection h with h
      subst h
      exact fixAlt1Try_head (by omega) h2
    | none =>
      rw [h2] at h
      exact fixAlt1Try_head (by omega) h

theorem fixCapture_cases {rest p : List Char}
    (h : fixCapture rest = some p) :
    p.head? = some backtick ∨ ∀ c ∈ p, c ≠ '\n' := by
  unfold fixCapture at h
  cases ha : fixAlt1 rest with
  | some q =>
    rw [ha] at h
    simp only [Option.orElse] at h
    injection h with h
    subst h
    exact Or.inl (fixAlt1_head ha)
  | none =>
    rw [ha] at h
    simp only [Option.orElse] at h
    right
    unfold fixPlain at h
    by_cases he : (rest.takeWhile (fun c => c != '\n')).isEmpty = true
    · rw [if_pos he] at h
      exact absurd h (by simp)
    · rw [if_neg he] at h
      injection h with h
      subst h
      intro c hc hcn
      have := List.mem_takeWhile_imp hc
      rw [hcn] at this
      simp at this

/-- **C3, counterexample.** A Prevention Tip whose content spans two lines
(with no later label following) is captured only up to the first newline,
not up to the end of the text as the claim states. -/
theorem c3_counterexample :
    extractPrevention c3PrevInput = some "use version control".data ∧
    extractPrevention c3PrevInput ≠
      some "use version control\nand backups".data := by
  decide

/-- **C3 (amended).** Root Cause, Technical Explanation and Potential Risks
captures extend from their label exactly to the first later position where
one of that regex's own later-section markers begins or the text ends
(allowing a final newline); the Prevention Tip capture can contain a newline
only as its first character (otherwise it stops at the first newline); and a
Fix capture is either backtick-delimited or contains no newline at all (the
plain alternative is single-line). -/
theorem c3_sections_spec :
    (∀ s p, extractCause s = some p →
        SectionSpec causeLabel causeMarkers s p) ∧
    (∀ s p, extractExplanation s = some p →
        SectionSpec explanationLabel explanationMarkers s p) ∧
    (∀ s p, extractRisk s = some p →
        SectionSpec riskLabel riskMarkers s p) ∧
    (∀ s p, extractPrevention s = some p → ∀ c ∈ p.drop 1, c ≠ '\n') ∧
    (∀ s p, extractFix s = some p →
        p.head? = some backtick ∨ ∀ c ∈ p, c ≠ '\n') := by
  refine ⟨fun s p h => extractSection_spec h,
    fun s p h => extractSection_spec h,
    fun s p h => extractSection_spec h,
    fun s p h => extractPrevention_tail_no_nl h,
    fun s p h => ?_⟩
  obtain ⟨pre, rest, _, hcap⟩ := searchCapture_spec fixLabel fixCapture s p h
  exact fixCapture_cases hcap

theorem c3_witness :
    SectionSpec causeLabel causeMarkers (causeLabel ++ "ab".data) "ab".data ∧
    SectionSpec explanationLabel explanationMarkers
      (explanationLabel ++ "ex".data) "ex".data ∧
    SectionSpec riskLabel riskMarkers (riskLabel ++ "rk".data) "rk".data ∧
    (∀ c ∈ ("use version control".data).drop 1, c ≠ '\n') ∧
    (("rm -rf x".data).head? = some backtick ∨
      ∀ c ∈ "rm -rf x".data, c ≠ '\n') :=
  ⟨c3_sections_spec.1 _ _ (by decide),
    c3_sections_spec.2.1 _ _ (by decide),
    c3_sections_spec.2.2.1 _ _ (by decide),
    c3_sections_spec.2.2.2.1 c3PrevInput _ (by decide),
    c3_sections_spec.2.2.2.2 (fixLabel ++ "rm -rf x".data) _ (by decide)⟩

/-- **C5 (code bug).** `os.getcwd()` is evaluated outside the `try` of
`_get_file_context`, so when the working directory cannot be resolved the
exception propagates through `_get_additional_context` and aborts bundle
assembly — contradicting the claim that every fragment accessor absorbs its
own failures.  All other collector failures are absorbed as claimed: with
`getcwd` intact, simultaneous failure of `listdir`, `ps`, `ss` and git
still yields a complete bundle of empty defaults. -/
theorem c5_getcwd_failure_propagates :
    get_file_context deletedCwdWorld = Except.error () ∧
    get_additional_context "ls -l" deletedCwdWorld = Except.error () ∧
    get_additional_context "git push" allCollectorsFailWorld =
      Except.ok
        { env_vars := get_relevant_env_vars allCollectorsFailWorld
          process_tree := []
          file_context := { files := [], dirs := [] }
          network_state := []
          git := [] } :=
  ⟨rfl, rfl, rfl⟩

end ShellSage
